import Mathlib

/-!
A shallow embedding of `prvhash42.h` (the PRVHASH 4.2 hash function, 64-bit
state variables with 32-bit hash words) and a verification of its
specification.

Bytes are modelled as `Nat` values below 256 held in a `List Nat`; 64-bit
(resp. 32-bit) machine words are `Nat` with explicit reduction `% 2 ^ 64`
(resp. `% 2 ^ 32`) wherever the C code can overflow.  The host byte order is
an explicit parameter `be : Bool` (`true` = big-endian host): the raw
`*(uint32_t*)` accesses of the C code become `readHost32` / `writeHost32`,
and the endianness-correction helpers of `prvhash42ec.h` (which is not part
of the sources, only its interface is specified) are modelled from the spec.

C `int` comparisons such as `k < MsgLen - 3` are rendered over `Nat` as
`k + 3 < MsgLen`, which agrees with the C signed-integer semantics for all
non-negative `k` and `MsgLen` (truncated `Nat` subtraction would not).
-/

namespace Prvhash

/-- Modelled from the spec: `prvhash42_u32ec` of the external endianness
normalizer `prvhash42ec.h` reads 4 bytes starting at offset `k` in canonical
(little-endian) order and returns them as a native integer, independently of
the host byte order and without mutating the source. -/
def prvhash42_u32ec (m : List Nat) (k : Nat) : Nat :=
  m.getD k 0 + m.getD (k + 1) 0 * 2 ^ 8 + m.getD (k + 2) 0 * 2 ^ 16 +
    m.getD (k + 3) 0 * 2 ^ 24

/-- Modelled from the spec: `prvhash42_u64ec` of the external endianness
normalizer reads 8 bytes starting at offset `k` in canonical (little-endian)
order. -/
def prvhash42_u64ec (m : List Nat) (k : Nat) : Nat :=
  prvhash42_u32ec m k + prvhash42_u32ec m (k + 4) * 2 ^ 32

/-- Modelled from the spec: helper for `prvhash42_ec`, processing `n`
4-byte words from the front of the byte list.  On a big-endian host each
4-byte word is reversed; on a little-endian host the buffer is untouched. -/
def ecWords (be : Bool) : Nat → List Nat → List Nat
  | 0, l => l
  | n + 1, b0 :: b1 :: b2 :: b3 :: rest =>
    if be then b3 :: b2 :: b1 :: b0 :: ecWords be n rest
    else b0 :: b1 :: b2 :: b3 :: ecWords be n rest
  | _ + 1, l => l

/-- Modelled from the spec: `prvhash42_ec( buf, len )` of the external
endianness normalizer reorders every 4-byte word of `buf[0:len]` between
host order and canonical order, in place: a no-op on a little-endian host, a
per-word byte swap on a big-endian host. -/
def prvhash42_ec (be : Bool) (buf : List Nat) (len : Nat) : List Nat :=
  ecWords be (len / 4) buf

/-- The C expression `*(uint32_t*) &Hash[ k ]`: a host-order unsigned 32-bit
read of the bytes at offsets `k .. k+3`. -/
def readHost32 (be : Bool) (m : List Nat) (k : Nat) : Nat :=
  if be then
    m.getD k 0 * 2 ^ 24 + m.getD (k + 1) 0 * 2 ^ 16 + m.getD (k + 2) 0 * 2 ^ 8 +
      m.getD (k + 3) 0
  else
    m.getD k 0 + m.getD (k + 1) 0 * 2 ^ 8 + m.getD (k + 2) 0 * 2 ^ 16 +
      m.getD (k + 3) 0 * 2 ^ 24

/-- Store four byte values at offsets `k .. k+3`. -/
def writeBytes4 (m : List Nat) (k b0 b1 b2 b3 : Nat) : List Nat :=
  (((m.set k b0).set (k + 1) b1).set (k + 2) b2).set (k + 3) b3

/-- The C statement `*(uint32_t*) &Hash[ k ] = v`: a host-order unsigned
32-bit store of `v` into the bytes at offsets `k .. k+3`. -/
def writeHost32 (be : Bool) (m : List Nat) (k v : Nat) : List Nat :=
  if be then
    writeBytes4 m k (v / 2 ^ 24 % 2 ^ 8) (v / 2 ^ 16 % 2 ^ 8) (v / 2 ^ 8 % 2 ^ 8)
      (v % 2 ^ 8)
  else
    writeBytes4 m k (v % 2 ^ 8) (v / 2 ^ 8 % 2 ^ 8) (v / 2 ^ 16 % 2 ^ 8)
      (v / 2 ^ 24 % 2 ^ 8)

/-- `const int hlm = ( HashLen == 4 ? HashLen : HashLen << 1 );` -/
def hlmOf (HashLen : Nat) : Nat := if HashLen = 4 then HashLen else HashLen <<< 1

/-- `const uint8_t lb = (uint8_t) ( MsgLen > 0 ? ~Msg[ MsgLen - 1 ] : 0xFF );`
with the `uint8_t` truncation of `~` rendered as `^^^ 255`. -/
def lbOf (Msg : List Nat) : Nat :=
  if 0 < Msg.length then Msg.getD (Msg.length - 1) 0 ^^^ 255 else 255

/-- `const int mlext = MsgLen + (( 4 - ( MsgLen & 3 )) & 3 );` -/
def mlextOf (MsgLen : Nat) : Nat := MsgLen + ((4 - (MsgLen &&& 3)) &&& 3)

/-- `const int c = mlext + HashLen + ( hlm - mlext % hlm );` -/
def cOf (MsgLen HashLen : Nat) : Nat :=
  mlextOf MsgLen + HashLen + (hlmOf HashLen - mlextOf MsgLen % hlmOf HashLen)

/-- The per-iteration message word `msgw` (lines 108-120 of `prvhash42.h`):
a real canonical-order word while four real bytes remain (`k < MsgLen - 3`
over the C ints, i.e. `k + 3 < MsgLen`), otherwise assembled byte-by-byte
with the filler byte `lb` standing in for absent message bytes, `lb` always
in the most significant position. -/
def prvhash42_msgw (Msg : List Nat) (lb k : Nat) : Nat :=
  if k + 3 < Msg.length then
    prvhash42_u32ec Msg k
  else
    (if k < Msg.length then Msg.getD k 0 else lb) |||
      (if k + 1 < Msg.length then Msg.getD (k + 1) 0 else lb) <<< 8 |||
      (if k + 2 < Msg.length then Msg.getD (k + 2) 0 else lb) <<< 16 |||
      lb <<< 24

/-- The mutable state of the main loop of `prvhash42`. -/
structure MixState where
  Seed : Nat
  lcg : Nat
  Hash : List Nat
  hpos : Nat
deriving Repr, DecidableEq

/-- One iteration body of the main loop (lines 122-136 of `prvhash42.h`),
in source order:
`Seed *= lcg; Seed = ~Seed;` then `hl = lcg >> 32 ^ msgw` from the
pre-update `lcg`, then `lcg += Seed`, then `ph = *hc ^ ( Seed >> 32 )`,
then `Seed ^= ph ^ hl`, then `*hc = (uint32_t) ph`, then `hpos += 4` with a
wrap to 0 when `hpos == hlm`. -/
def mixStep (be : Bool) (hlm : Nat) (msgw : Nat) (s : MixState) : MixState :=
  let Seed0 := s.Seed * s.lcg % 2 ^ 64 ^^^ (2 ^ 64 - 1)
  let hl := s.lcg / 2 ^ 32 ^^^ msgw
  let lcg1 := (s.lcg + Seed0) % 2 ^ 64
  let ph := readHost32 be s.Hash s.hpos ^^^ Seed0 / 2 ^ 32
  let Seed1 := Seed0 ^^^ ph ^^^ hl
  let Hash1 := writeHost32 be s.Hash s.hpos (ph % 2 ^ 32)
  let hpos1 := s.hpos + 4
  ⟨Seed1, lcg1, Hash1, if hpos1 = hlm then 0 else hpos1⟩

/-- The main loop `for( k = 0; k < c; k += 4 )` of `prvhash42.h`, as the C
code writes it: recursion on the loop counter `k`, terminating because
`c - k` decreases. -/
def prvhash42_loop (be : Bool) (hlm : Nat) (Msg : List Nat) (lb c : Nat)
    (k : Nat) (s : MixState) : MixState :=
  if k < c then
    prvhash42_loop be hlm Msg lb c (k + 4)
      (mixStep be hlm (prvhash42_msgw Msg lb k) s)
  else s
termination_by c - k
decreasing_by omega

/-- Fuel-indexed form of the main loop: run `n` iterations starting at
message offset `k`.  `prvhash42_loop` with `c = k + 4 * n` coincides with
it (proved below). -/
def mixLoop (be : Bool) (hlm : Nat) (Msg : List Nat) (lb : Nat) :
    Nat → Nat → MixState → MixState
  | 0, _, s => s
  | n + 1, k, s =>
    mixLoop be hlm Msg lb n (k + 4) (mixStep be hlm (prvhash42_msgw Msg lb k) s)

/-- Initialization (lines 85-98 of `prvhash42.h`): with no `InitVec` the
first `hlm` bytes of the hash buffer are zeroed (`memset`) and the default
seed constants are used, `SeedXOR` perturbing `Seed`; with an `InitVec` the
buffer is only endianness-corrected in place and `lcg`, `Seed` are read from
the vector's offsets 0 and 8 in canonical order.  Returns
`(lcg, Seed, initial hash buffer)`. -/
def prvhash42_init (be : Bool) (Hash : List Nat) (hlm : Nat) (SeedXOR : Nat)
    (InitVec : Option (List Nat)) : Nat × Nat × List Nat :=
  match InitVec with
  | none =>
    (15252113002925621231, 17412655673657598932 ^^^ SeedXOR,
      List.replicate hlm 0 ++ Hash.drop hlm)
  | some iv =>
    (prvhash42_u64ec iv 0, prvhash42_u64ec iv 8, prvhash42_ec be Hash hlm)

/-- One iteration of the finalization fold (line 143 of `prvhash42.h`):
`*(uint32_t*) ( Hash + k ) ^= *(uint32_t*) ( Hash + HashLen + k );`. -/
def foldStep (be : Bool) (HashLen k : Nat) (H : List Nat) : List Nat :=
  writeHost32 be H k (readHost32 be H k ^^^ readHost32 be H (HashLen + k))

/-- The finalization fold loop `for( k = 0; k < HashLen; k += 4 )`, run as
`n` iterations from offset `k` (with `4 ∣ HashLen` the C loop performs
exactly `HashLen / 4` iterations). -/
def foldLoop (be : Bool) (HashLen : Nat) : Nat → Nat → List Nat → List Nat
  | 0, _, H => H
  | n + 1, k, H => foldLoop be HashLen n (k + 4) (foldStep be HashLen k H)

/-- Finalization (lines 139-147 of `prvhash42.h`): when `hlm > 4` fold the
scratch half into the output half, then endianness-correct the first
`HashLen` bytes. -/
def prvhash42_final (be : Bool) (HashLen : Nat) (H : List Nat) : List Nat :=
  prvhash42_ec be
    (if 4 < hlmOf HashLen then foldLoop be HashLen (HashLen / 4) 0 H else H)
    HashLen

/-- The whole `prvhash42` function over the byte-list model, parameterized
by the host byte order `be`. -/
def prvhash42 (be : Bool) (Msg Hash : List Nat) (HashLen SeedXOR : Nat)
    (InitVec : Option (List Nat)) : List Nat :=
  let hlm := hlmOf HashLen
  let ini := prvhash42_init be Hash hlm SeedXOR InitVec
  let s := prvhash42_loop be hlm Msg (lbOf Msg) (cOf Msg.length HashLen) 0
    ⟨ini.2.1, ini.1, ini.2.2, 0⟩
  prvhash42_final be HashLen s.Hash

/-- The mixing step exactly as the specification words it: the bitwise
complement of a 64-bit value `a` is rendered as `2 ^ 64 - 1 - a`, the high
32 bits of a 64-bit value as division by `2 ^ 32`, the low 32 bits as
reduction `% 2 ^ 32`, and the 64-bit wraparound add and multiply as
reduction `% 2 ^ 64`, in the order the specification prescribes. -/
def mixStepSpec (be : Bool) (hlm : Nat) (msgw : Nat) (s : MixState) : MixState :=
  let Seed0 := 2 ^ 64 - 1 - s.Seed * s.lcg % 2 ^ 64
  let hl := s.lcg / 2 ^ 32 ^^^ msgw
  let lcg1 := (s.lcg + Seed0) % 2 ^ 64
  let ph := readHost32 be s.Hash s.hpos ^^^ Seed0 / 2 ^ 32
  let Seed1 := Seed0 ^^^ ph ^^^ hl
  let Hash1 := writeHost32 be s.Hash s.hpos (ph % 2 ^ 32)
  let hpos1 := s.hpos + 4
  ⟨Seed1, lcg1, Hash1, if hpos1 = hlm then 0 else hpos1⟩

/-- The per-step message word exactly as the specification words it: when
`k ≤ MsgLen - 4` (rendered `k + 4 ≤ MsgLen`) the real little-endian word at
offset `k`, otherwise a byte-by-byte assembly where byte offsets 0, 1, 2
take the real message byte when `k + offset < MsgLen` and the filler byte
otherwise, byte offset 3 always the filler; the filler is the bitwise
complement (`255 - b`) of the last message byte, or `255` for an empty
message. -/
def msgwClaim (Msg : List Nat) (k : Nat) : Nat :=
  let L := Msg.length
  let lb := if L = 0 then 255 else 255 - Msg.getD (L - 1) 0
  if k + 4 ≤ L then
    Msg.getD k 0 + Msg.getD (k + 1) 0 * 2 ^ 8 + Msg.getD (k + 2) 0 * 2 ^ 16 +
      Msg.getD (k + 3) 0 * 2 ^ 24
  else
    (if k < L then Msg.getD k 0 else lb) +
      (if k + 1 < L then Msg.getD (k + 1) 0 else lb) * 2 ^ 8 +
      (if k + 2 < L then Msg.getD (k + 2) 0 else lb) * 2 ^ 16 + lb * 2 ^ 24

/-! ### Helper lemmas -/

/-- XORing a value below `2 ^ n` with the all-ones mask `2 ^ n - 1` is the
`n`-bit bitwise complement, i.e. subtraction from `2 ^ n - 1`. -/
theorem xor_mask {a n : Nat} (h : a < 2 ^ n) : a ^^^ (2 ^ n - 1) = 2 ^ n - 1 - a := by
  apply Nat.eq_of_testBit_eq
  intro i
  have h1 : 2 ^ n - 1 - a = 2 ^ n - (a + 1) := by omega
  rw [h1, Nat.testBit_two_pow_sub_succ h, Nat.testBit_xor,
    Nat.testBit_two_pow_sub_one]
  by_cases hi : i < n
  · simp [hi]
  · have : a < 2 ^ i := lt_of_lt_of_le h (Nat.pow_le_pow_right (by norm_num) (by omega))
    simp [hi, Nat.testBit_lt_two_pow this]

/-- Bitwise `or` with a disjoint shifted value is addition. -/
theorem lor_shift_add {a : Nat} (b : Nat) {n : Nat} (h : a < 2 ^ n) :
    a ||| b <<< n = a + b * 2 ^ n := by
  have h1 := Nat.mul_add_lt_is_or h b
  rw [Nat.shiftLeft_eq, Nat.lor_comm, Nat.mul_comm b (2 ^ n), ← h1]
  omega

/-- `getD` after `set` at the same (in-bounds) index. -/
theorem getD_set_self {l : List Nat} {i : Nat} {v d : Nat} (h : i < l.length) :
    (l.set i v).getD i d = v := by
  simp [List.getD_eq_getElem?_getD, List.getElem?_set_self h]

/-- `getD` after `set` at a different index. -/
theorem getD_set_other {l : List Nat} {i j : Nat} {v d : Nat} (h : i ≠ j) :
    (l.set i v).getD j d = l.getD j d := by
  simp [List.getD_eq_getElem?_getD, List.getElem?_set_ne h]

theorem length_writeBytes4 (m : List Nat) (k b0 b1 b2 b3 : Nat) :
    (writeBytes4 m k b0 b1 b2 b3).length = m.length := by
  simp [writeBytes4]

theorem length_writeHost32 (be : Bool) (m : List Nat) (k v : Nat) :
    (writeHost32 be m k v).length = m.length := by
  unfold writeHost32
  by_cases h : be <;> simp [h, length_writeBytes4]

/-- Bytes outside the 4-byte window of `writeBytes4` are untouched. -/
theorem getD_writeBytes4_outside {m : List Nat} {k j : Nat} (b0 b1 b2 b3 : Nat)
    (h : j < k ∨ k + 3 < j) :
    (writeBytes4 m k b0 b1 b2 b3).getD j 0 = m.getD j 0 := by
  unfold writeBytes4
  rw [getD_set_other (by omega), getD_set_other (by omega),
    getD_set_other (by omega), getD_set_other (by omega)]

/-- Bytes outside the 4-byte window of `writeHost32` are untouched. -/
theorem getD_writeHost32_outside {be : Bool} {m : List Nat} {k j v : Nat}
    (h : j < k ∨ k + 3 < j) :
    (writeHost32 be m k v).getD j 0 = m.getD j 0 := by
  unfold writeHost32
  by_cases hbe : be <;> simp only [hbe, if_true, if_false] <;>
    exact getD_writeBytes4_outside _ _ _ _ h

/-- Reading a word whose 4-byte window is disjoint from the window written
by `writeHost32` gives the old value. -/
theorem readHost32_writeHost32_outside {be : Bool} {m : List Nat} {k j v : Nat}
    (h : j + 3 < k ∨ k + 3 < j) :
    readHost32 be (writeHost32 be m k v) j = readHost32 be m j := by
  unfold readHost32
  rw [getD_writeHost32_outside (by omega), getD_writeHost32_outside (by omega),
    getD_writeHost32_outside (by omega), getD_writeHost32_outside (by omega)]

theorem getD_writeBytes4_at0 {m : List Nat} {k : Nat} (b0 b1 b2 b3 : Nat)
    (h : k < m.length) : (writeBytes4 m k b0 b1 b2 b3).getD k 0 = b0 := by
  unfold writeBytes4
  rw [getD_set_other (by omega), getD_set_other (by omega),
    getD_set_other (by omega), getD_set_self h]

theorem getD_writeBytes4_at1 {m : List Nat} {k : Nat} (b0 b1 b2 b3 : Nat)
    (h : k + 1 < m.length) : (writeBytes4 m k b0 b1 b2 b3).getD (k + 1) 0 = b1 := by
  unfold writeBytes4
  rw [getD_set_other (by omega), getD_set_other (by omega),
    getD_set_self (by simpa using h)]

theorem getD_writeBytes4_at2 {m : List Nat} {k : Nat} (b0 b1 b2 b3 : Nat)
    (h : k + 2 < m.length) : (writeBytes4 m k b0 b1 b2 b3).getD (k + 2) 0 = b2 := by
  unfold writeBytes4
  rw [getD_set_other (by omega), getD_set_self (by simpa using h)]

theorem getD_writeBytes4_at3 {m : List Nat} {k : Nat} (b0 b1 b2 b3 : Nat)
    (h : k + 3 < m.length) : (writeBytes4 m k b0 b1 b2 b3).getD (k + 3) 0 = b3 := by
  unfold writeBytes4
  rw [getD_set_self (by simpa using h)]

/-- Reading back the word just written by `writeHost32` gives the written
value, for a 32-bit value and an in-bounds window. -/
theorem readHost32_writeHost32_self {be : Bool} {m : List Nat} {k v : Nat}
    (hk : k + 3 < m.length) (hv : v < 2 ^ 32) :
    readHost32 be (writeHost32 be m k v) k = v := by
  cases be <;>
    simp only [readHost32, writeHost32, Bool.false_eq_true, if_false, if_true] <;>
    rw [getD_writeBytes4_at0 _ _ _ _ (by omega), getD_writeBytes4_at1 _ _ _ _ (by omega),
      getD_writeBytes4_at2 _ _ _ _ (by omega), getD_writeBytes4_at3 _ _ _ _ (by omega)] <;>
    omega

/-- A byte list with all entries below 256 yields `getD` values below 256. -/
theorem getD_lt_256 {m : List Nat} (hb : ∀ b ∈ m, b < 256) (j : Nat) :
    m.getD j 0 < 256 := by
  by_cases h : j < m.length
  · have he : m.getD j 0 = m[j] := by
      simp [List.getD_eq_getElem?_getD, List.getElem?_eq_getElem h]
    rw [he]
    exact hb _ (List.getElem_mem h)
  · rw [List.getD_eq_default _ _ (by omega)]
    norm_num

/-- A host-order 32-bit read of a byte list is below `2 ^ 32`. -/
theorem readHost32_lt {be : Bool} {m : List Nat} (hb : ∀ b ∈ m, b < 256) (j : Nat) :
    readHost32 be m j < 2 ^ 32 := by
  have h0 := getD_lt_256 hb j
  have h1 := getD_lt_256 hb (j + 1)
  have h2 := getD_lt_256 hb (j + 2)
  have h3 := getD_lt_256 hb (j + 3)
  cases be <;>
    simp only [readHost32, Bool.false_eq_true, if_false, if_true] <;> omega

/-- `writeHost32` keeps every byte below 256. -/
theorem writeHost32_bytes_lt {be : Bool} {m : List Nat} {k v : Nat}
    (hb : ∀ b ∈ m, b < 256) : ∀ b ∈ writeHost32 be m k v, b < 256 := by
  have step : ∀ (l : List Nat) (i x : Nat), x < 256 → (∀ b ∈ l, b < 256) →
      ∀ b ∈ l.set i x, b < 256 := by
    intro l i x hx hl b hbmem
    rcases List.mem_or_eq_of_mem_set hbmem with h | h
    · exact hl _ h
    · omega
  cases be <;>
    simp only [writeHost32, writeBytes4, Bool.false_eq_true, if_false, if_true] <;>
    (apply step _ _ _ (by omega); apply step _ _ _ (by omega);
      apply step _ _ _ (by omega); apply step _ _ _ (by omega); exact hb)

/-- On a little-endian host the endianness normalizer is a no-op. -/
theorem ecWords_false (n : Nat) : ∀ l : List Nat, ecWords false n l = l := by
  induction n with
  | zero => intro l; rfl
  | succ n ih =>
    intro l
    rcases l with _ | ⟨b0, _ | ⟨b1, _ | ⟨b2, _ | ⟨b3, rest⟩⟩⟩⟩ <;>
      simp [ecWords, ih]

/-- Bytes at or past the corrected length are untouched by `ecWords`. -/
theorem ecWords_getD_ge (be : Bool) (n : Nat) :
    ∀ (l : List Nat) (j : Nat), 4 * n ≤ j →
      (ecWords be n l).getD j 0 = l.getD j 0 := by
  induction n with
  | zero => intro l j _; rfl
  | succ n ih =>
    intro l j hj
    rcases l with _ | ⟨b0, _ | ⟨b1, _ | ⟨b2, _ | ⟨b3, rest⟩⟩⟩⟩
    · rfl
    · rfl
    · rfl
    · rfl
    · obtain ⟨j', rfl⟩ : ∃ j', j = j' + 4 := ⟨j - 4, by omega⟩
      cases be <;>
        simp only [ecWords, Bool.false_eq_true, if_false, if_true] <;>
        simpa [List.getD_cons_succ] using ih rest j' (by omega)

/-- Bytes outside `[k, k + 4n)` are untouched by the finalization fold. -/
theorem foldLoop_getD_outside (be : Bool) (HashLen : Nat) :
    ∀ (n k : Nat) (H : List Nat) (j : Nat), j < k ∨ k + 4 * n ≤ j →
      (foldLoop be HashLen n k H).getD j 0 = H.getD j 0 := by
  intro n
  induction n with
  | zero => intro k H j _; rfl
  | succ n ih =>
    intro k H j h
    show (foldLoop be HashLen n (k + 4) (foldStep be HashLen k H)).getD j 0 = _
    rw [ih (k + 4) _ j (by omega)]
    exact getD_writeHost32_outside (by omega)

theorem foldStep_bytes_lt {be : Bool} {HashLen k : Nat} {H : List Nat}
    (hb : ∀ b ∈ H, b < 256) : ∀ b ∈ foldStep be HashLen k H, b < 256 := by
  unfold foldStep
  exact writeHost32_bytes_lt hb

theorem length_foldStep (be : Bool) (HashLen k : Nat) (H : List Nat) :
    (foldStep be HashLen k H).length = H.length := by
  unfold foldStep
  exact length_writeHost32 _ _ _ _

/-- Each aligned output word of the finalization fold is the XOR of the
original output word and the original scratch word `HashLen` bytes later. -/
theorem foldLoop_read_word (be : Bool) (HashLen : Nat) :
    ∀ (n k : Nat) (H : List Nat), (∀ b ∈ H, b < 256) → H.length = 2 * HashLen →
      k + 4 * n ≤ HashLen →
      ∀ p, k ≤ p → p < k + 4 * n → 4 ∣ p - k →
        readHost32 be (foldLoop be HashLen n k H) p =
          readHost32 be H p ^^^ readHost32 be H (HashLen + p) := by
  intro n
  induction n with
  | zero => intro k H _ _ _ p h1 h2 _; omega
  | succ n ih =>
    intro k H hb hlen hkn p hkp hpn hdvd
    show readHost32 be (foldLoop be HashLen n (k + 4) (foldStep be HashLen k H)) p = _
    by_cases hp : p = k
    · subst hp
      have e0 := foldLoop_getD_outside be HashLen n (p + 4)
        (foldStep be HashLen p H) p (Or.inl (by omega))
      have e1 := foldLoop_getD_outside be HashLen n (p + 4)
        (foldStep be HashLen p H) (p + 1) (Or.inl (by omega))
      have e2 := foldLoop_getD_outside be HashLen n (p + 4)
        (foldStep be HashLen p H) (p + 2) (Or.inl (by omega))
      have e3 := foldLoop_getD_outside be HashLen n (p + 4)
        (foldStep be HashLen p H) (p + 3) (Or.inl (by omega))
      have hread : readHost32 be (foldLoop be HashLen n (p + 4) (foldStep be HashLen p H)) p =
          readHost32 be (foldStep be HashLen p H) p := by
        cases be <;>
          simp only [readHost32, Bool.false_eq_true, if_false, if_true] <;>
          rw [e0, e1, e2, e3]
      rw [hread]
      unfold foldStep
      exact readHost32_writeHost32_self (by omega)
        (Nat.xor_lt_two_pow (readHost32_lt hb _) (readHost32_lt hb _))
    · have hge : k + 4 ≤ p := by
        obtain ⟨t, ht⟩ := hdvd
        omega
      have hb2 : ∀ b ∈ foldStep be HashLen k H, b < 256 := foldStep_bytes_lt hb
      have hlen2 : (foldStep be HashLen k H).length = 2 * HashLen := by
        rw [length_foldStep]; exact hlen
      have hdvd2 : 4 ∣ p - (k + 4) := by
        obtain ⟨t, ht⟩ := hdvd
        exact ⟨t - 1, by omega⟩
      rw [ih (k + 4) _ hb2 hlen2 (by omega) p hge (by omega) hdvd2]
      unfold foldStep
      rw [readHost32_writeHost32_outside (Or.inr (by omega)),
        readHost32_writeHost32_outside (Or.inr (by omega))]

/-- The cursor update of one mixing step, as the C code writes it. -/
theorem mixStep_hpos (be : Bool) (hlm w : Nat) (s : MixState) :
    (mixStep be hlm w s).hpos = if s.hpos + 4 = hlm then 0 else s.hpos + 4 := rfl

theorem mixStep_hpos_mod (be : Bool) {hlm : Nat} (w : Nat) {s : MixState}
    (h1 : s.hpos < hlm) (h2 : 4 ∣ s.hpos) (hd : 4 ∣ hlm) :
    (mixStep be hlm w s).hpos = (s.hpos + 4) % hlm := by
  rw [mixStep_hpos]
  obtain ⟨a, ha⟩ := hd
  obtain ⟨b, hb⟩ := h2
  by_cases he : s.hpos + 4 = hlm
  · rw [if_pos he, he, Nat.mod_self]
  · rw [if_neg he, Nat.mod_eq_of_lt (by omega)]

/-- After `i` iterations of the main loop the cursor has advanced by `4 * i`
bytes modulo `hlm`. -/
theorem mixLoop_hpos (be : Bool) (hlm : Nat) (Msg : List Nat) (lb : Nat)
    (hd : 4 ∣ hlm) (hpos : 0 < hlm) :
    ∀ (i k : Nat) (s : MixState), s.hpos < hlm → 4 ∣ s.hpos →
      (mixLoop be hlm Msg lb i k s).hpos = (s.hpos + 4 * i) % hlm := by
  intro i
  induction i with
  | zero =>
    intro k s h1 _
    show s.hpos = (s.hpos + 4 * 0) % hlm
    rw [Nat.mul_zero, Nat.add_zero, Nat.mod_eq_of_lt h1]
  | succ i ih =>
    intro k s h1 h2
    show (mixLoop be hlm Msg lb i (k + 4) (mixStep be hlm (prvhash42_msgw Msg lb k) s)).hpos = _
    have hstep := mixStep_hpos_mod be (prvhash42_msgw Msg lb k) h1 h2 hd
    rw [ih (k + 4) _ (by rw [hstep]; exact Nat.mod_lt _ hpos)
      (by rw [hstep]; exact (Nat.dvd_mod_iff hd).2 (by omega)), hstep,
      Nat.mod_add_mod, show s.hpos + 4 + 4 * i = s.hpos + 4 * (i + 1) by omega]

/-- The C `for` loop form of the main loop agrees with the fuel-indexed
form: when `c = k + 4 * n` it performs exactly `n` iterations. -/
theorem prvhash42_loop_eq_mixLoop (be : Bool) (hlm : Nat) (Msg : List Nat)
    (lb c : Nat) :
    ∀ (n k : Nat) (s : MixState), c = k + 4 * n →
      prvhash42_loop be hlm Msg lb c k s = mixLoop be hlm Msg lb n k s := by
  intro n
  induction n with
  | zero =>
    intro k s h
    rw [prvhash42_loop, if_neg (by omega)]
    rfl
  | succ n ih =>
    intro k s h
    rw [prvhash42_loop, if_pos (by omega)]
    exact ih (k + 4) _ (by omega)

/-- `x &&& 3` is `x % 4`. -/
theorem and_three_eq_mod (x : Nat) : x &&& 3 = x % 4 := by
  have h : (3 : Nat) = 2 ^ 2 - 1 := by norm_num
  rw [h, Nat.and_pow_two_sub_one_eq_mod]

/-- `mlext` is the message length padded with `(4 - MsgLen % 4) % 4` bytes. -/
theorem mlextOf_eq (M : Nat) : mlextOf M = M + (4 - M % 4) % 4 := by
  unfold mlextOf
  rw [and_three_eq_mod, and_three_eq_mod]

/-- `mlext` is a multiple of 4. -/
theorem mlextOf_dvd (M : Nat) : 4 ∣ mlextOf M := by
  rw [mlextOf_eq]
  omega

/-- `mlext` rounds `MsgLen` up to the next multiple of 4. -/
theorem mlextOf_bounds (M : Nat) : M ≤ mlextOf M ∧ mlextOf M < M + 4 := by
  rw [mlextOf_eq]
  omega

/-- Basic facts about `hlm` for a valid `HashLen`. -/
theorem hlmOf_facts {HashLen : Nat} (h4 : 4 ≤ HashLen) (hd : 4 ∣ HashLen) :
    4 ∣ hlmOf HashLen ∧ 0 < hlmOf HashLen ∧ HashLen ≤ hlmOf HashLen ∧
      hlmOf HashLen ≤ 2 * HashLen := by
  unfold hlmOf
  by_cases he : HashLen = 4
  · rw [if_pos he]
    omega
  · rw [if_neg he, Nat.shiftLeft_eq]
    norm_num
    omega

/-- For `HashLen > 4` the buffer is double width. -/
theorem hlmOf_eq_two_mul {HashLen : Nat} (h : 4 < HashLen) :
    hlmOf HashLen = 2 * HashLen := by
  unfold hlmOf
  rw [if_neg (by omega), Nat.shiftLeft_eq]
  ring

/-! ### The claims -/

/-- C1: for every 4-byte chunk the mixing step computes exactly, in this
order and with all 64-bit arithmetic wrapping modulo `2 ^ 64`: `Seed`
becomes the bitwise complement of `Seed * LCG`; `hl` is the high 32 bits of
the pre-update `LCG` XORed with the 32-bit message word; `LCG` becomes
`LCG + Seed` with the new `Seed`; `ph` is the 32-bit hash word at `hpos`
XORed with the high 32 bits of the new `Seed`; `Seed` becomes
`Seed XOR ph XOR hl`; and the low 32 bits of `ph` are written back at
`hpos`.  Formally: the source-translated step coincides with the step
written exactly as the specification words it. -/
theorem claim_C1 (be : Bool) (hlm msgw : Nat) (s : MixState) :
    mixStep be hlm msgw s = mixStepSpec be hlm msgw s := by
  unfold mixStep mixStepSpec
  rw [xor_mask (Nat.mod_lt _ (by norm_num))]

/-- C2 (amended): `c` extends the loop strictly beyond the padded message
end by at least `HashLen + 4` bytes, equals the last wrap boundary at or
before `mlext` plus one whole `hlm` cycle plus `HashLen`, every aligned
slot of the hash buffer is hit by some iteration, and every aligned slot is
hit by a post-message iteration (`k ≥ mlext`) whenever
`mlext % hlm ≤ HashLen` — in particular always when `HashLen = 4`. -/
theorem claim_C2 (MsgLen HashLen : Nat) (h4 : 4 ≤ HashLen) (hd : 4 ∣ HashLen) :
    mlextOf MsgLen + HashLen + 4 ≤ cOf MsgLen HashLen ∧
    cOf MsgLen HashLen =
      (mlextOf MsgLen - mlextOf MsgLen % hlmOf HashLen) + hlmOf HashLen + HashLen ∧
    (∀ p, p < hlmOf HashLen → 4 ∣ p →
      ∃ k, 4 ∣ k ∧ k < cOf MsgLen HashLen ∧ k % hlmOf HashLen = p) ∧
    (mlextOf MsgLen % hlmOf HashLen ≤ HashLen →
      ∀ p, p < hlmOf HashLen → 4 ∣ p →
        ∃ k, 4 ∣ k ∧ mlextOf MsgLen ≤ k ∧ k < cOf MsgLen HashLen ∧
          k % hlmOf HashLen = p) := by
  obtain ⟨hdh, hpos, hle, hub⟩ := hlmOf_facts h4 hd
  have hdm : 4 ∣ mlextOf MsgLen := mlextOf_dvd MsgLen
  have hr4 : 4 ∣ mlextOf MsgLen % hlmOf HashLen := (Nat.dvd_mod_iff hdh).2 hdm
  have hrlt : mlextOf MsgLen % hlmOf HashLen < hlmOf HashLen :=
    Nat.mod_lt _ hpos
  have hrle : mlextOf MsgLen % hlmOf HashLen ≤ mlextOf MsgLen :=
    Nat.mod_le _ _
  have hqm := Nat.div_add_mod (mlextOf MsgLen) (hlmOf HashLen)
  have hc : cOf MsgLen HashLen = mlextOf MsgLen + HashLen +
      (hlmOf HashLen - mlextOf MsgLen % hlmOf HashLen) := rfl
  refine ⟨by omega, by omega, ?_, ?_⟩
  · intro p hp hdp
    exact ⟨p, hdp, by omega, Nat.mod_eq_of_lt hp⟩
  · intro hrH p hp hdp
    by_cases hpr : mlextOf MsgLen % hlmOf HashLen ≤ p
    · refine ⟨hlmOf HashLen * (mlextOf MsgLen / hlmOf HashLen) + p,
        by omega, by omega, by omega, ?_⟩
      rw [Nat.mul_add_mod]
      exact Nat.mod_eq_of_lt hp
    · have hd2 : hlmOf HashLen * (mlextOf MsgLen / hlmOf HashLen + 1) =
          hlmOf HashLen * (mlextOf MsgLen / hlmOf HashLen) + hlmOf HashLen := by
        ring
      refine ⟨hlmOf HashLen * (mlextOf MsgLen / hlmOf HashLen + 1) + p,
        by omega, by omega, by omega, ?_⟩
      rw [Nat.mul_add_mod]
      exact Nat.mod_eq_of_lt hp

theorem claim_C2_witness :
    (4 ≤ 4 ∧ (4:Nat) ∣ 4) ∧
      (mlextOf 3 + 4 + 4 ≤ cOf 3 4 ∧
      cOf 3 4 = (mlextOf 3 - mlextOf 3 % hlmOf 4) + hlmOf 4 + 4 ∧
      (∀ p, p < hlmOf 4 → 4 ∣ p →
        ∃ k, 4 ∣ k ∧ k < cOf 3 4 ∧ k % hlmOf 4 = p) ∧
      (mlextOf 3 % hlmOf 4 ≤ 4 →
        ∀ p, p < hlmOf 4 → 4 ∣ p →
          ∃ k, 4 ∣ k ∧ mlextOf 3 ≤ k ∧ k < cOf 3 4 ∧ k % hlmOf 4 = p)) :=
  ⟨⟨by decide, by decide⟩, claim_C2 3 4 (by decide) (by decide)⟩

/-- C2 as frozen is false: for `MsgLen = 12` and `HashLen = 8` (so
`mlext = 12`, `hlm = 16`, `c = 24`) the aligned slot at byte offset 8 of
the hash buffer is not reached by any iteration with index `k ≥ mlext`:
the post-message iterations are `k = 12, 16, 20`, touching offsets
`12, 0, 4` only. -/
theorem claim_C2_cex :
    8 < hlmOf 8 ∧ (4:Nat) ∣ 8 ∧
      ∀ k < cOf 12 8, 4 ∣ k → mlextOf 12 ≤ k → k % hlmOf 8 ≠ 8 := by
  decide

/-- C3: for every step `k`, when `k ≤ MsgLen - 4` the message word is the
real little-endian word at offset `k`; otherwise it is assembled
byte-by-byte, byte offsets 0, 1, 2 taking the real message byte when
`k + offset < MsgLen` and the filler `lb` otherwise, byte offset 3 always
`lb`, with `lb` the bitwise complement of the last message byte or `0xFF`
for the empty message: the source-translated word equals the word as the
specification words it. -/
theorem claim_C3 (Msg : List Nat) (k : Nat) (hb : ∀ b ∈ Msg, b < 256) :
    prvhash42_msgw Msg (lbOf Msg) k = msgwClaim Msg k := by
  have h255 : (255 : Nat) = 2 ^ 8 - 1 := by norm_num
  have hlb_lt : lbOf Msg < 256 := by
    unfold lbOf
    by_cases h : 0 < Msg.length
    · rw [if_pos h]
      have hg : Msg.getD (Msg.length - 1) 0 < 2 ^ 8 := by
        have := getD_lt_256 hb (Msg.length - 1)
        omega
      have := Nat.xor_lt_two_pow hg (show (255 : Nat) < 2 ^ 8 by norm_num)
      omega
    · rw [if_neg h]
      norm_num
  have hlb : lbOf Msg =
      if Msg.length = 0 then 255 else 255 - Msg.getD (Msg.length - 1) 0 := by
    unfold lbOf
    by_cases h : 0 < Msg.length
    · rw [if_pos h, if_neg (by omega), h255,
        xor_mask (getD_lt_256 hb (Msg.length - 1))]
    · rw [if_neg h, if_pos (by omega)]
  simp only [prvhash42_msgw, msgwClaim, ← hlb]
  by_cases hk : k + 3 < Msg.length
  · rw [if_pos hk, if_pos (by omega)]
    rfl
  · rw [if_neg hk, if_neg (show ¬ k + 4 ≤ Msg.length from by omega)]
    have b0 : (if k < Msg.length then Msg.getD k 0 else lbOf Msg) < 2 ^ 8 := by
      by_cases h : k < Msg.length
      · rw [if_pos h]; have := getD_lt_256 hb k; omega
      · rw [if_neg h]; omega
    have b1 : (if k + 1 < Msg.length then Msg.getD (k + 1) 0 else lbOf Msg) < 2 ^ 8 := by
      by_cases h : k + 1 < Msg.length
      · rw [if_pos h]; have := getD_lt_256 hb (k + 1); omega
      · rw [if_neg h]; omega
    have b2 : (if k + 2 < Msg.length then Msg.getD (k + 2) 0 else lbOf Msg) < 2 ^ 8 := by
      by_cases h : k + 2 < Msg.length
      · rw [if_pos h]; have := getD_lt_256 hb (k + 2); omega
      · rw [if_neg h]; omega
    rw [lor_shift_add _ b0, lor_shift_add _ (show _ < 2 ^ 16 by omega),
      lor_shift_add _ (show _ < 2 ^ 24 by omega)]

theorem claim_C3_witness :
    (∀ b ∈ [1, 2, 3], b < 256) ∧
      prvhash42_msgw [1, 2, 3] (lbOf [1, 2, 3]) 2 = msgwClaim [1, 2, 3] 2 :=
  ⟨by decide, claim_C3 [1, 2, 3] 2 (by decide)⟩

/-- C5: the buffer cursor `hpos` starts at 0, stays within `[0, hlm)`
after every run of iterations, advances by exactly 4 per iteration, and
wraps to 0 exactly when it reaches `hlm`: after `i` iterations it equals
`4 * i % hlm`. -/
theorem claim_C5 (be : Bool) (Msg : List Nat) (lb HashLen : Nat) (s0 : MixState)
    (h4 : 4 ≤ HashLen) (hd : 4 ∣ HashLen) (h0 : s0.hpos = 0) :
    (∀ w s, (mixStep be (hlmOf HashLen) w s).hpos =
      if s.hpos + 4 = hlmOf HashLen then 0 else s.hpos + 4) ∧
    (∀ i k, (mixLoop be (hlmOf HashLen) Msg lb i k s0).hpos =
      4 * i % hlmOf HashLen) ∧
    (∀ i k, (mixLoop be (hlmOf HashLen) Msg lb i k s0).hpos < hlmOf HashLen) := by
  obtain ⟨hdh, hpos, _, _⟩ := hlmOf_facts h4 hd
  have key : ∀ i k, (mixLoop be (hlmOf HashLen) Msg lb i k s0).hpos =
      4 * i % hlmOf HashLen := by
    intro i k
    rw [mixLoop_hpos be _ Msg lb hdh hpos i k s0 (by omega)
      (by rw [h0]; exact Nat.dvd_zero 4), h0, Nat.zero_add]
  exact ⟨fun w s => rfl, key, fun i k => by rw [key i k]; exact Nat.mod_lt _ hpos⟩

theorem claim_C5_witness :
    (4 ≤ 8 ∧ (4:Nat) ∣ 8 ∧ (MixState.mk 1 2 [] 0).hpos = 0) ∧
      ((∀ w s, (mixStep false (hlmOf 8) w s).hpos =
        if s.hpos + 4 = hlmOf 8 then 0 else s.hpos + 4) ∧
      (∀ i k, (mixLoop false (hlmOf 8) [5] 7 i k (MixState.mk 1 2 [] 0)).hpos =
        4 * i % hlmOf 8) ∧
      (∀ i k, (mixLoop false (hlmOf 8) [5] 7 i k (MixState.mk 1 2 [] 0)).hpos <
        hlmOf 8)) :=
  ⟨⟨by decide, by decide, by decide⟩,
    claim_C5 false [5] 7 8 (MixState.mk 1 2 [] 0) (by decide) (by decide) (by decide)⟩

/-- C8: for every `MsgLen` and every valid `HashLen` the iteration length
`c` is a positive multiple of 4 and the C `for` loop, which terminates by
construction (well-founded recursion on `c - k`), performs exactly `c / 4`
iterations: it agrees with the fuel-indexed loop run `c / 4` times. -/
theorem claim_C8 (MsgLen HashLen : Nat) (h4 : 4 ≤ HashLen) (hd : 4 ∣ HashLen) :
    0 < cOf MsgLen HashLen ∧ 4 ∣ cOf MsgLen HashLen ∧
    ∀ (be : Bool) (Msg : List Nat) (lb : Nat) (s : MixState),
      prvhash42_loop be (hlmOf HashLen) Msg lb (cOf MsgLen HashLen) 0 s =
        mixLoop be (hlmOf HashLen) Msg lb (cOf MsgLen HashLen / 4) 0 s := by
  obtain ⟨hdh, hpos, hle, hub⟩ := hlmOf_facts h4 hd
  have hdm : 4 ∣ mlextOf MsgLen := mlextOf_dvd MsgLen
  have hr4 : 4 ∣ mlextOf MsgLen % hlmOf HashLen := (Nat.dvd_mod_iff hdh).2 hdm
  have hrlt : mlextOf MsgLen % hlmOf HashLen < hlmOf HashLen := Nat.mod_lt _ hpos
  have hrle : mlextOf MsgLen % hlmOf HashLen ≤ mlextOf MsgLen := Nat.mod_le _ _
  have hc : cOf MsgLen HashLen = mlextOf MsgLen + HashLen +
      (hlmOf HashLen - mlextOf MsgLen % hlmOf HashLen) := rfl
  refine ⟨by omega, by omega, fun be Msg lb s => ?_⟩
  exact prvhash42_loop_eq_mixLoop be _ Msg lb _ _ 0 s (by omega)

theorem claim_C8_witness :
    (4 ≤ 4 ∧ (4:Nat) ∣ 4) ∧
      (0 < cOf 0 4 ∧ 4 ∣ cOf 0 4 ∧
      ∀ (be : Bool) (Msg : List Nat) (lb : Nat) (s : MixState),
        prvhash42_loop be (hlmOf 4) Msg lb (cOf 0 4) 0 s =
          mixLoop be (hlmOf 4) Msg lb (cOf 0 4 / 4) 0 s) :=
  ⟨⟨by decide, by decide⟩, claim_C8 0 4 (by decide) (by decide)⟩

/-- C4: at finalization, when `HashLen = 4` the fold is skipped and only
the 4 output bytes are endianness-corrected; when `HashLen > 4` each
aligned output word at offset `p < HashLen` is XORed with the scratch word
at offset `HashLen + p`, the result is endianness-corrected on exactly the
first `HashLen` bytes, and every byte at offset `≥ HashLen` (the scratch
half) is left untouched and unnormalized. -/
theorem claim_C4 (be : Bool) (HashLen : Nat) (H : List Nat)
    (h4 : 4 ≤ HashLen) (hd : 4 ∣ HashLen)
    (hlen : H.length = hlmOf HashLen) (hb : ∀ b ∈ H, b < 256) :
    (HashLen = 4 → prvhash42_final be HashLen H = prvhash42_ec be H HashLen) ∧
    (4 < HashLen →
      prvhash42_final be HashLen H =
        prvhash42_ec be (foldLoop be HashLen (HashLen / 4) 0 H) HashLen ∧
      (∀ p, p < HashLen → 4 ∣ p →
        readHost32 be (foldLoop be HashLen (HashLen / 4) 0 H) p =
          readHost32 be H p ^^^ readHost32 be H (HashLen + p)) ∧
      (∀ j, HashLen ≤ j →
        (prvhash42_final be HashLen H).getD j 0 = H.getD j 0)) := by
  constructor
  · intro he
    subst he
    have h44 : hlmOf 4 = 4 := rfl
    unfold prvhash42_final
    rw [h44, if_neg (by omega)]
  · intro hgt
    have hlm2 : hlmOf HashLen = 2 * HashLen := hlmOf_eq_two_mul hgt
    have hq : 4 * (HashLen / 4) = HashLen := by omega
    have hfin : prvhash42_final be HashLen H =
        prvhash42_ec be (foldLoop be HashLen (HashLen / 4) 0 H) HashLen := by
      unfold prvhash42_final
      rw [if_pos (by omega)]
    refine ⟨hfin, ?_, ?_⟩
    · intro p hp hdp
      exact foldLoop_read_word be HashLen (HashLen / 4) 0 H hb (by omega)
        (by omega) p (by omega) (by omega) (by simpa using hdp)
    · intro j hj
      rw [hfin]
      unfold prvhash42_ec
      rw [ecWords_getD_ge be _ _ j (by omega)]
      exact foldLoop_getD_outside be HashLen (HashLen / 4) 0 H j (Or.inr (by omega))

theorem claim_C4_witness :
    (4 ≤ 8 ∧ (4:Nat) ∣ 8 ∧
      (List.length [10, 11, 12, 13, 14, 15, 16, 17, 20, 21, 22, 23, 24, 25, 26, 27] =
        hlmOf 8) ∧
      (∀ b ∈ [10, 11, 12, 13, 14, 15, 16, 17, 20, 21, 22, 23, 24, 25, 26, 27],
        b < 256)) ∧
    ((8 = 4 → prvhash42_final true 8
        [10, 11, 12, 13, 14, 15, 16, 17, 20, 21, 22, 23, 24, 25, 26, 27] =
      prvhash42_ec true
        [10, 11, 12, 13, 14, 15, 16, 17, 20, 21, 22, 23, 24, 25, 26, 27] 8) ∧
    (4 < 8 →
      prvhash42_final true 8
          [10, 11, 12, 13, 14, 15, 16, 17, 20, 21, 22, 23, 24, 25, 26, 27] =
        prvhash42_ec true (foldLoop true 8 (8 / 4) 0
          [10, 11, 12, 13, 14, 15, 16, 17, 20, 21, 22, 23, 24, 25, 26, 27]) 8 ∧
      (∀ p, p < 8 → 4 ∣ p →
        readHost32 true (foldLoop true 8 (8 / 4) 0
            [10, 11, 12, 13, 14, 15, 16, 17, 20, 21, 22, 23, 24, 25, 26, 27]) p =
          readHost32 true
              [10, 11, 12, 13, 14, 15, 16, 17, 20, 21, 22, 23, 24, 25, 26, 27] p ^^^
            readHost32 true
              [10, 11, 12, 13, 14, 15, 16, 17, 20, 21, 22, 23, 24, 25, 26, 27]
              (8 + p)) ∧
      (∀ j, 8 ≤ j →
        (prvhash42_final true 8
            [10, 11, 12, 13, 14, 15, 16, 17, 20, 21, 22, 23, 24, 25, 26, 27]).getD j 0 =
          List.getD [10, 11, 12, 13, 14, 15, 16, 17, 20, 21, 22, 23, 24, 25, 26, 27]
            j 0))) :=
  ⟨⟨by decide, by decide, by decide, by decide⟩,
    claim_C4 true 8 [10, 11, 12, 13, 14, 15, 16, 17, 20, 21, 22, 23, 24, 25, 26, 27]
      (by decide) (by decide) (by decide) (by decide)⟩

/-- C6: with a non-null `InitVec` the hash buffer is not reset: it is only
endianness-corrected in place (on a little-endian host it is bit-for-bit
unchanged), `lcg` and `Seed` are the canonical-order 64-bit words at
offsets 0 and 8 of the vector, and `SeedXOR` and the default seed
constants play no role in this path. -/
theorem claim_C6 (be : Bool) (Hash iv : List Nat) (hlm SeedXOR : Nat) :
    prvhash42_init be Hash hlm SeedXOR (some iv) =
      (prvhash42_u64ec iv 0, prvhash42_u64ec iv 8, prvhash42_ec be Hash hlm) ∧
    (∀ S1 S2 : Nat, prvhash42_init be Hash hlm S1 (some iv) =
      prvhash42_init be Hash hlm S2 (some iv)) ∧
    (be = false →
      (prvhash42_init be Hash hlm SeedXOR (some iv)).2.2 = Hash) := by
  refine ⟨rfl, fun S1 S2 => rfl, fun hbe => ?_⟩
  subst hbe
  show prvhash42_ec false Hash hlm = Hash
  exact ecWords_false _ Hash

theorem claim_C6_witness :
    prvhash42_init false [9, 8, 7, 6] 4 31
        (some [1, 0, 0, 0, 0, 0, 0, 0, 2, 0, 0, 0, 0, 0, 0, 0]) =
      (prvhash42_u64ec [1, 0, 0, 0, 0, 0, 0, 0, 2, 0, 0, 0, 0, 0, 0, 0] 0,
        prvhash42_u64ec [1, 0, 0, 0, 0, 0, 0, 0, 2, 0, 0, 0, 0, 0, 0, 0] 8,
        prvhash42_ec false [9, 8, 7, 6] 4) ∧
    (∀ S1 S2 : Nat, prvhash42_init false [9, 8, 7, 6] 4 S1
        (some [1, 0, 0, 0, 0, 0, 0, 0, 2, 0, 0, 0, 0, 0, 0, 0]) =
      prvhash42_init false [9, 8, 7, 6] 4 S2
        (some [1, 0, 0, 0, 0, 0, 0, 0, 2, 0, 0, 0, 0, 0, 0, 0])) ∧
    (false = false →
      (prvhash42_init false [9, 8, 7, 6] 4 31
        (some [1, 0, 0, 0, 0, 0, 0, 0, 2, 0, 0, 0, 0, 0, 0, 0])).2.2 = [9, 8, 7, 6]) :=
  claim_C6 false [9, 8, 7, 6] [1, 0, 0, 0, 0, 0, 0, 0, 2, 0, 0, 0, 0, 0, 0, 0] 4 31

/-- C7: in the `InitVec`-null path, for every 64-bit `SeedXOR`, `lcg` is
the fixed nonzero constant 15252113002925621231 and `Seed` is
17412655673657598932 XORed with `SeedXOR` (again a 64-bit value), so
`Seed` and `lcg` are never both zero entering the loop. -/
theorem claim_C7 (be : Bool) (Hash : List Nat) (hlm SeedXOR : Nat)
    (h : SeedXOR < 2 ^ 64) :
    (prvhash42_init be Hash hlm SeedXOR none).1 = 15252113002925621231 ∧
    (prvhash42_init be Hash hlm SeedXOR none).1 ≠ 0 ∧
    (prvhash42_init be Hash hlm SeedXOR none).2.1 =
      17412655673657598932 ^^^ SeedXOR ∧
    (prvhash42_init be Hash hlm SeedXOR none).2.1 < 2 ^ 64 ∧
    ¬((prvhash42_init be Hash hlm SeedXOR none).2.1 = 0 ∧
      (prvhash42_init be Hash hlm SeedXOR none).1 = 0) := by
  refine ⟨rfl, ?_, rfl, ?_, ?_⟩
  · show (15252113002925621231 : Nat) ≠ 0
    norm_num
  · show (17412655673657598932 : Nat) ^^^ SeedXOR < 2 ^ 64
    exact Nat.xor_lt_two_pow (by norm_num) h
  · rintro ⟨-, h2⟩
    have h3 : (15252113002925621231 : Nat) = 0 := h2
    norm_num at h3

theorem claim_C7_witness :
    (0 : Nat) < 2 ^ 64 ∧
      ((prvhash42_init false [] 4 0 none).1 = 15252113002925621231 ∧
      (prvhash42_init false [] 4 0 none).1 ≠ 0 ∧
      (prvhash42_init false [] 4 0 none).2.1 = 17412655673657598932 ^^^ 0 ∧
      (prvhash42_init false [] 4 0 none).2.1 < 2 ^ 64 ∧
      ¬((prvhash42_init false [] 4 0 none).2.1 = 0 ∧
        (prvhash42_init false [] 4 0 none).1 = 0)) :=
  ⟨by norm_num, claim_C7 false [] 4 0 (by norm_num)⟩

/-- C10: for every non-empty message the filler byte `lb` differs from the
last real message byte, unconditionally, because the 8-bit bitwise
complement of a byte never equals the byte itself. -/
theorem claim_C10 (Msg : List Nat) (h : 0 < Msg.length) :
    lbOf Msg ≠ Msg.getD (Msg.length - 1) 0 := by
  unfold lbOf
  rw [if_pos h]
  intro he
  have h1 : Msg.getD (Msg.length - 1) 0 ^^^
      (Msg.getD (Msg.length - 1) 0 ^^^ 255) = 255 := by
    rw [← Nat.xor_assoc, Nat.xor_self, Nat.zero_xor]
  rw [he, Nat.xor_self] at h1
  exact absurd h1 (by norm_num)

theorem claim_C10_witness :
    0 < List.length [(7 : Nat)] ∧
      lbOf [7] ≠ List.getD [7] (List.length [(7 : Nat)] - 1) 0 :=
  ⟨by decide, claim_C10 [7] (by decide)⟩

end Prvhash
